import Mathlib

/-!
Verification of the chunked file-transfer engine (`src/upload/file-transfer.ts`)
against its natural-language specification.

The development shallowly embeds the TypeScript class `FileTransfer`:

* `initializeChunks` embeds `FileTransfer.initializeChunks` (the chunk planner):
  the JS `for (let start = resumePosition; start < totalSize; start += chunkSize)`
  loop becomes structural recursion on a fuel argument equal to
  `totalSize - resumePosition`; when `chunkSize ≥ 1` the fuel never runs out, so
  the embedding agrees with the source loop on every terminating input (when
  `chunkSize = 0` the JS loop does not terminate; the fuel case is unreachable
  for the inputs any theorem below speaks about).
* `processChunkWithRetry` embeds `FileTransfer.processChunkWithRetry`: the
  `while (chunk.retries < retryAttempts)` loop becomes recursion on the fuel
  `retryAttempts - retries`; the transport call is an oracle
  `op : Nat → Except String α` giving the outcome of each attempt.  Besides the
  result the embedding returns the final retry counter, the number of transport
  attempts actually made, and the total time spent in `setTimeout` delays.
* `runChunks` / `processChunksRun` embed the final state of
  `FileTransfer.processChunks`: the concurrent scheduler settles every chunk
  exactly once, with an outcome determined only by that chunk's own attempt
  outcomes, so the terminal `completedChunks` / `failedChunks` / `bytesTransferred`
  / `results` values are independent of the interleaving; the embedding realises
  the sequential interleaving (launch order, which the code fixes to be
  list order via `getNextChunk`).
* `SchedStep` is a small-step relation over `SchedState` covering every
  interleaving of the scheduler loop of `processChunks` (launching a pending
  chunk while `activeChunks.size < concurrentChunks`, and a worker settling with
  success or terminal failure); safety invariants are proved over all states
  reachable from the initial state, hence over every trace of the code.
* `getProgress` embeds `FileTransfer.getProgress` over `ℚ` (exact arithmetic in
  place of JS floats); the embedding is faithful whenever `elapsed > 0`, i.e.
  whenever the JS division is not a division by zero.
* `uploadChunkState` embeds the effect of `FileTransfer.uploadChunk` on the
  chunk record, with the content hasher (`crypto.subtle` in the source) as an
  oracle parameter.
-/

namespace FileTransferSpec

/-- The `FileChunk` record of `src/upload/types.ts`; the TS field `end` is a
Lean keyword and is rendered `endPos`, and the optional `hash?: string` field
is an `Option String`. -/
structure FileChunk where
  id : String
  index : Nat
  start : Nat
  endPos : Nat
  size : Nat
  hash : Option String
  retries : Nat
deriving Repr, DecidableEq

/-- The chunk id `` `chunk-${start}-${end}` `` built by `initializeChunks`. -/
def chunkId (s e : Nat) : String :=
  "chunk-" ++ toString s ++ "-" ++ toString e

/-- One chunk as pushed by the loop body of `initializeChunks`:
`{ id, index: Math.floor(start / chunkSize), start, end, size: end - start, retries: 0 }`. -/
def mkChunk (chunkSize s e : Nat) : FileChunk :=
  { id := chunkId s e
    index := s / chunkSize
    start := s
    endPos := e
    size := e - s
    hash := none
    retries := 0 }

/-- The loop of `initializeChunks`:
`for (start = resumePosition; start < totalSize; start += chunkSize)` pushing
`mkChunk` with `end = min(start + chunkSize, totalSize)`.  The extra fuel
argument makes the recursion structural; `fuel = totalSize - start` suffices
whenever `chunkSize ≥ 1`. -/
def initChunksAux (totalSize chunkSize : Nat) : Nat → Nat → List FileChunk
  | _, 0 => []
  | start, fuel + 1 =>
    if start < totalSize then
      mkChunk chunkSize start (min (start + chunkSize) totalSize) ::
        initChunksAux totalSize chunkSize (start + chunkSize) fuel
    else []

/-- `FileTransfer.initializeChunks`: plans the chunk list from
`totalSize = file.size`, `config.chunkSize` and
`resumePosition = config.resumePosition || 0`. -/
def initializeChunks (totalSize chunkSize resumePosition : Nat) : List FileChunk :=
  initChunksAux totalSize chunkSize resumePosition (totalSize - resumePosition)

/-- `initializeChunks` viewed in the error monad of JS exceptions: the body of
the source function contains no `throw` whatsoever, so the embedding always
returns `Except.ok`. -/
def initializeChunksE (totalSize chunkSize resumePosition : Nat) :
    Except String (List FileChunk) :=
  Except.ok (initializeChunks totalSize chunkSize resumePosition)

/-- Adjacency of two planned chunks: the second starts where the first ends. -/
def Adjacent (a b : FileChunk) : Prop := a.endPos = b.start

/-- Byte-interval non-overlap of two planned chunks (in list order). -/
def Precedes (a b : FileChunk) : Prop := a.endPos ≤ b.start

/-- The `while (chunk.retries < retryAttempts)` loop of
`FileTransfer.processChunkWithRetry`.  The fuel argument is
`retryAttempts - retries` (so `fuel > 0` is exactly the loop guard, and the
inner `if fuel = 0` is exactly the source's `if (chunk.retries >= retryAttempts)
throw error` after `chunk.retries++`).  `op` gives the outcome of each transport
attempt (numbered from 0).  Returned tuple: the settled result, the final value
of `chunk.retries`, the number of transport attempts made, and the total
`setTimeout` delay awaited. -/
def retryAux {α : Type} (op : Nat → Except String α) (retryDelay : Nat) :
    Nat → Nat → Nat → Nat → Except String α × Nat × Nat × Nat
  | 0, retries, attempt, delayed =>
    (Except.error "Max retry attempts reached for chunk", retries, attempt, delayed)
  | fuel + 1, retries, attempt, delayed =>
    match op attempt with
    | Except.ok a => (Except.ok a, retries, attempt + 1, delayed)
    | Except.error e =>
      if fuel = 0 then (Except.error e, retries + 1, attempt + 1, delayed)
      else retryAux op retryDelay fuel (retries + 1) (attempt + 1) (delayed + retryDelay)

/-- `FileTransfer.processChunkWithRetry` on a freshly planned chunk
(`chunk.retries = 0`). -/
def processChunkWithRetry {α : Type} (op : Nat → Except String α)
    (retryAttempts retryDelay : Nat) : Except String α × Nat × Nat × Nat :=
  retryAux op retryDelay retryAttempts 0 0 0

/-- An attempt oracle that fails on the first two attempts and would succeed on
every later one. -/
def failTwiceOps : Nat → Except String Unit :=
  fun i => if i < 2 then Except.error "network error" else Except.ok ()

/-- The mutable fields of `FileTransfer` observed by `processChunks`, plus the
`results` array and a counter of transport attempts actually made.  The JS
`Set<string>`s appear in settlement order. -/
structure RunState (α : Type) where
  results : List (Option α)
  completed : List String
  failed : List String
  bytesTransferred : Nat
  attempts : Nat
deriving Repr, DecidableEq

/-- Settlement of one chunk inside `processChunks`: the `.then` handler stores
`results[chunk.index] = result`, adds the id to `completedChunks` and adds
`chunk.size` to `bytesTransferred`; the `.catch` handler adds the id to
`failedChunks` (the `results` slot stays unset). -/
def runChunksStep {α : Type} (retryAttempts retryDelay : Nat)
    (op : FileChunk → Nat → Except String α) (st : RunState α) (c : FileChunk) :
    RunState α :=
  let r := processChunkWithRetry (op c) retryAttempts retryDelay
  match r.1 with
  | Except.ok a =>
      { st with
        results := st.results.set c.index (some a)
        completed := st.completed ++ [c.id]
        bytesTransferred := st.bytesTransferred + c.size
        attempts := st.attempts + r.2.2.1 }
  | Except.error _ =>
      { st with
        failed := st.failed ++ [c.id]
        attempts := st.attempts + r.2.2.1 }

/-- The terminal `TransferState` of a `processChunks` run.  Each chunk of a run
is settled exactly once, by `processChunkWithRetry` on that chunk's own attempt
outcomes, so the terminal sets, byte count and `results` array do not depend on
the interleaving of the concurrent workers; this embedding realises the
launch-order (`getNextChunk` list-order) interleaving. -/
def runChunks {α : Type} (chunks : List FileChunk) (retryAttempts retryDelay : Nat)
    (op : FileChunk → Nat → Except String α) : RunState α :=
  chunks.foldl (runChunksStep retryAttempts retryDelay op)
    { results := List.replicate chunks.length none
      completed := []
      failed := []
      bytesTransferred := 0
      attempts := 0 }

/-- The value or exception `processChunks` settles with:
`if (this.failedChunks.size > 0) throw new Error` with the message
`` `Failed to process ${this.failedChunks.size} chunks` ``, else the `results`
array. -/
def processChunksRun {α : Type} (chunks : List FileChunk) (retryAttempts retryDelay : Nat)
    (op : FileChunk → Nat → Except String α) : Except String (List (Option α)) :=
  let st := runChunks chunks retryAttempts retryDelay op
  if 0 < st.failed.length then
    Except.error ("Failed to process " ++ toString st.failed.length ++ " chunks")
  else
    Except.ok st.results

/-- Boolean prefix test on character lists (for reasoning about what a thrown
error message mentions). -/
def isPrefixOfB : List Char → List Char → Bool
  | [], _ => true
  | _ :: _, [] => false
  | a :: as, b :: bs => a == b && isPrefixOfB as bs

/-- Boolean substring test on character lists. -/
def isInfixB (pat : List Char) : List Char → Bool
  | [] => isPrefixOfB pat []
  | b :: rest => isPrefixOfB pat (b :: rest) || isInfixB pat rest

/-- Scenario B chunk list: 5 chunks over 10 bytes with `chunkSize = 2`;
chunk #3 is the chunk of index 2, id `chunk-4-6`. -/
def scenarioBChunks : List FileChunk := initializeChunks 10 2 0

/-- Scenario B transport oracle: chunk #3 (index 2) always fails, every other
chunk succeeds immediately. -/
def scenarioBOp : FileChunk → Nat → Except String Unit :=
  fun c _ => if c.index = 2 then Except.error "network error" else Except.ok ()

/-- The mutable chunk-tracking state of `FileTransfer` as observed by the
scheduler loop of `processChunks`: the three JS `Set<string>`s and the byte
counter. -/
structure SchedState where
  active : Finset String
  completed : Finset String
  failed : Finset String
  bytesTransferred : Nat

/-- The predicate of `hasAvailableChunks` / `getNextChunk`: a chunk in none of
the three sets. -/
def isPendingB (s : SchedState) (c : FileChunk) : Bool :=
  !(decide (c.id ∈ s.active)) && !(decide (c.id ∈ s.completed)) &&
    !(decide (c.id ∈ s.failed))

/-- `FileTransfer.getNextChunk`: `this.chunks.find(...)` over the pending
predicate. -/
def getNextChunk (chunks : List FileChunk) (s : SchedState) : Option FileChunk :=
  chunks.find? (isPendingB s)

/-- `FileTransfer.hasIncompleteChunks`:
`completedChunks.size + failedChunks.size < chunks.length`. -/
def hasIncompleteChunks (chunks : List FileChunk) (s : SchedState) : Bool :=
  decide (s.completed.card + s.failed.card < chunks.length)

/-- Sum of the sizes of the chunks whose id lies in `comp` (the value
`bytesTransferred` is supposed to track for `comp = completedChunks`). -/
def completedBytes (comp : Finset String) : List FileChunk → Nat
  | [] => 0
  | c :: rest => (if c.id ∈ comp then c.size else 0) + completedBytes comp rest

/-- One atomic scheduler event of `processChunks`, over every interleaving of
the launch loop and the worker settlement callbacks:

* `launch` — the inner `while` body: guarded by
  `activeChunks.size < concurrentChunks` and `getNextChunk` returning a chunk,
  it adds the chunk id to `activeChunks`;
* `settleOk` — the `.then` callback of a worker whose chunk is active: moves
  the id from `activeChunks` to `completedChunks` and adds `chunk.size` to
  `bytesTransferred`;
* `settleFail` — the `.catch` callback: moves the id from `activeChunks` to
  `failedChunks`. -/

inductive SchedStep (chunks : List FileChunk) (concurrentChunks : Nat) :
    SchedState → SchedState → Prop
  | launch (s : SchedState) (c : FileChunk)
      (hcap : s.active.card < concurrentChunks)
      (hget : getNextChunk chunks s = some c) :
      SchedStep chunks concurrentChunks s
        ⟨insert c.id s.active, s.completed, s.failed, s.bytesTransferred⟩
  | settleOk (s : SchedState) (c : FileChunk)
      (hc : c ∈ chunks) (ha : c.id ∈ s.active) :
      SchedStep chunks concurrentChunks s
        ⟨s.active.erase c.id, insert c.id s.completed, s.failed,
          s.bytesTransferred + c.size⟩
  | settleFail (s : SchedState) (c : FileChunk)
      (hc : c ∈ chunks) (ha : c.id ∈ s.active) :
      SchedStep chunks concurrentChunks s
        ⟨s.active.erase c.id, s.completed, insert c.id s.failed,
          s.bytesTransferred⟩

/-- The state of `FileTransfer` at the start of `processChunks`: empty sets,
no bytes transferred. -/
def initSchedState : SchedState := ⟨∅, ∅, ∅, 0⟩

/-- States of a `processChunks` run: everything the scheduler can reach from
the initial state. -/
def Reachable (chunks : List FileChunk) (concurrentChunks : Nat)
    (s : SchedState) : Prop :=
  Relation.ReflTransGen (SchedStep chunks concurrentChunks) initSchedState s

/-- The ids of the planned chunks, as a finite set. -/
def chunkIds (chunks : List FileChunk) : Finset String :=
  (chunks.map FileChunk.id).toFinset

/-- The safety invariant of the scheduler state: the worker budget is
respected, the three id sets are pairwise disjoint, they only hold planned
chunk ids, and `bytesTransferred` is exactly the sum of the sizes of the
completed chunks. -/
structure SchedInv (chunks : List FileChunk) (concurrentChunks : Nat)
    (s : SchedState) : Prop where
  activeCard : s.active.card ≤ concurrentChunks
  disjAC : Disjoint s.active s.completed
  disjAF : Disjoint s.active s.failed
  disjCF : Disjoint s.completed s.failed
  subIds : s.active ∪ s.completed ∪ s.failed ⊆ chunkIds chunks
  bytes : s.bytesTransferred = completedBytes s.completed chunks

/-- `FileTransfer.getProgress`, over exact rationals: given the current
`bytesTransferred`, `file.size` and `now - startTime` in milliseconds, it
computes `elapsed = elapsedMs / 1000`, `speed = bytesTransferred / elapsed`
(no guard: the source divides unconditionally), `remaining = size - bytes`,
and `estimatedTimeRemaining = speed > 0 ? remaining / speed : 0`.  Returns
`(speed, remaining, estimatedTimeRemaining)`.  The `ℚ` embedding is faithful
exactly when `elapsedMs > 0` (for `elapsedMs = 0` the JS float division yields
`Infinity`/`NaN`, which `ℚ` cannot express). -/
def getProgress (bytesTransferred totalBytes elapsedMs : ℚ) : ℚ × ℚ × ℚ :=
  let elapsed := elapsedMs / 1000
  let speed := bytesTransferred / elapsed
  let remaining := totalBytes - bytesTransferred
  let estimatedTimeRemaining := if 0 < speed then remaining / speed else 0
  (speed, remaining, estimatedTimeRemaining)

/-- The effect of `FileTransfer.uploadChunk` on its chunk record together with
the body bytes it sends: it reads `file.slice(chunk.start, chunk.end)` and,
when `config.validateHash` is set, assigns `chunk.hash = calculateHash(data)`
before posting the form data.  The hasher (`crypto.subtle` SHA-256 in the
source) is the oracle `hashFn`; the network outcome does not touch the chunk
record further. -/
def uploadChunkState (hashFn : List Nat → String) (validateHash : Bool)
    (file : List Nat) (c : FileChunk) : FileChunk × List Nat :=
  let chunkData := (file.drop c.start).take (c.endPos - c.start)
  let c' := if validateHash then { c with hash := some (hashFn chunkData) } else c
  (c', chunkData)

/-- The bytes a range-honoring transport returns for a chunk's
`Range: bytes=start..end-1` request in `downloadChunk`: the payload slice
`[start, end)`. -/
def sliceOf (payload : List Nat) (c : FileChunk) : List Nat :=
  (payload.drop c.start).take (c.endPos - c.start)

/-- The positional filling of the `results` array in `processChunks`
(`results[chunk.index] = result`, starting from `new Array(n)`), applied to an
arbitrary sequence of `(index, bytes)` completion events. -/
def runWrites {β : Type} (n : Nat) (ws : List (Nat × β)) : List (Option β) :=
  ws.foldl (fun a w => a.set w.1 (some w.2)) (List.replicate n none)

/-- `new Blob(chunks)` over the filled results array: concatenation of the
slots in ascending index order. -/
def joinSlots {β : Type} (rs : List (Option (List β))) : List β :=
  (rs.map (fun o => o.getD [])).flatten

lemma initChunksAux_mem_bounds {totalSize chunkSize : Nat} (hcs : 0 < chunkSize) :
    ∀ fuel start c, c ∈ initChunksAux totalSize chunkSize start fuel →
      start ≤ c.start ∧ c.start < c.endPos ∧ c.endPos ≤ totalSize ∧
        c.endPos = min (c.start + chunkSize) totalSize ∧
        c.size = c.endPos - c.start ∧ c.size ≤ chunkSize := by
  intro fuel
  induction fuel with
  | zero => intro start c hc; simp [initChunksAux] at hc
  | succ fuel ih =>
    intro start c hc
    by_cases hlt : start < totalSize
    · simp only [initChunksAux, if_pos hlt, List.mem_cons] at hc
      rcases hc with rfl | hc
      · refine ⟨le_refl _, ?_, ?_, rfl, rfl, ?_⟩ <;> simp [mkChunk] <;> omega
      · have h := ih (start + chunkSize) c hc
        exact ⟨by omega, h.2⟩
    · simp [initChunksAux, if_neg hlt] at hc

lemma initChunksAux_chain {totalSize chunkSize : Nat} (hcs : 0 < chunkSize) :
    ∀ fuel start, List.Chain' Adjacent (initChunksAux totalSize chunkSize start fuel) := by
  intro fuel
  induction fuel with
  | zero => intro start; simp [initChunksAux]
  | succ fuel ih =>
    intro start
    by_cases hlt : start < totalSize
    · simp only [initChunksAux, if_pos hlt]
      refine List.chain'_cons'.mpr ⟨?_, ih (start + chunkSize)⟩
      intro b hb
      have hb' := List.mem_of_mem_head? hb
      have hbd := initChunksAux_mem_bounds hcs fuel (start + chunkSize) b hb'
      rcases fuel with _ | fuel
      · simp [initChunksAux] at hb
      · by_cases hlt2 : start + chunkSize < totalSize
        · simp only [initChunksAux, if_pos hlt2, List.head?_cons, Option.mem_def,
            Option.some.injEq] at hb
          subst hb
          simp [Adjacent, mkChunk]
          omega
        · simp [initChunksAux, if_neg hlt2] at hb
    · simp [initChunksAux, if_neg hlt]

lemma initChunksAux_cover {totalSize chunkSize : Nat} (hcs : 0 < chunkSize) :
    ∀ fuel start, totalSize - start ≤ fuel →
      ∀ x, (start ≤ x ∧ x < totalSize) ↔
        ∃ c ∈ initChunksAux totalSize chunkSize start fuel,
          c.start ≤ x ∧ x < c.endPos := by
  intro fuel
  induction fuel with
  | zero =>
    intro start hfuel x
    constructor
    · intro hx; omega
    · intro hx; simp [initChunksAux] at hx
  | succ fuel ih =>
    intro start hfuel x
    by_cases hlt : start < totalSize
    · simp only [initChunksAux, if_pos hlt]
      constructor
      · intro hx
        by_cases hx2 : x < min (start + chunkSize) totalSize
        · exact ⟨mkChunk chunkSize start (min (start + chunkSize) totalSize),
            List.mem_cons_self _ _, by simpa [mkChunk] using hx.1, by simpa [mkChunk] using hx2⟩
        · have hx3 : start + chunkSize ≤ x := by omega
          have := (ih (start + chunkSize) (by omega) x).mp ⟨hx3, hx.2⟩
          rcases this with ⟨c, hc, hcx⟩
          exact ⟨c, List.mem_cons_of_mem _ hc, hcx⟩
      · rintro ⟨c, hc, hcx⟩
        rcases List.mem_cons.mp hc with rfl | hc
        · simp only [mkChunk] at hcx
          omega
        · have hbd := initChunksAux_mem_bounds hcs fuel (start + chunkSize) c hc
          omega
    · constructor
      · intro hx; omega
      · intro hx
        simp [initChunksAux, if_neg hlt] at hx

lemma initChunksAux_pairwise {totalSize chunkSize : Nat} (hcs : 0 < chunkSize) :
    ∀ fuel start, List.Pairwise Precedes (initChunksAux totalSize chunkSize start fuel) := by
  intro fuel
  induction fuel with
  | zero => intro start; simp [initChunksAux]
  | succ fuel ih =>
    intro start
    by_cases hlt : start < totalSize
    · simp only [initChunksAux, if_pos hlt]
      refine List.pairwise_cons.mpr ⟨?_, ih (start + chunkSize)⟩
      intro b hb
      have hbd := initChunksAux_mem_bounds hcs fuel (start + chunkSize) b hb
      simp only [Precedes, mkChunk]
      omega
    · simp [initChunksAux, if_neg hlt]

/-- C1.  For `chunkSize > 0` and `resumeOffset ≤ totalSize`, the list produced
by `initializeChunks` is an ordered gap-free partition of
`[resumeOffset, totalSize)`: consecutive chunks are adjacent (each start equals
the previous end), chunks pairwise non-overlapping, a byte `x` is covered by
some chunk exactly when `resumeOffset ≤ x < totalSize`, every chunk satisfies
`size = end - start ≤ chunkSize` with `start < end`, and the concrete instance
`totalSize = 10, chunkSize = 4, resumeOffset = 0` yields exactly the three
chunks `[0,4), [4,8), [8,10)` of sizes `4, 4, 2`. -/
theorem c1_chunk_planner_partition (totalSize chunkSize resumeOffset : Nat)
    (hcs : 0 < chunkSize) (hro : resumeOffset ≤ totalSize) :
    List.Chain' Adjacent (initializeChunks totalSize chunkSize resumeOffset) ∧
    List.Pairwise Precedes (initializeChunks totalSize chunkSize resumeOffset) ∧
    (∀ x, (resumeOffset ≤ x ∧ x < totalSize) ↔
      ∃ c ∈ initializeChunks totalSize chunkSize resumeOffset,
        c.start ≤ x ∧ x < c.endPos) ∧
    (∀ c ∈ initializeChunks totalSize chunkSize resumeOffset,
      c.size = c.endPos - c.start ∧ c.start < c.endPos ∧ c.size ≤ chunkSize) ∧
    initializeChunks 10 4 0 =
      [mkChunk 4 0 4, mkChunk 4 4 8, mkChunk 4 8 10] := by
  refine ⟨initChunksAux_chain hcs _ _, initChunksAux_pairwise hcs _ _,
    initChunksAux_cover hcs _ _ (by omega), ?_, by decide⟩
  intro c hc
  have h := initChunksAux_mem_bounds hcs _ _ c hc
  exact ⟨h.2.2.2.2.1, h.2.1, h.2.2.2.2.2⟩

/-- Witness for `c1_chunk_planner_partition` at
`totalSize = 10, chunkSize = 4, resumeOffset = 0`. -/
theorem c1_chunk_planner_partition_witness :
    initializeChunks 10 4 0 = [mkChunk 4 0 4, mkChunk 4 4 8, mkChunk 4 8 10] :=
  (c1_chunk_planner_partition 10 4 0 (by decide) (by decide)).2.2.2.2

lemma retryAux_ok {α : Type} (op : Nat → Except String α) (retryDelay : Nat) :
    ∀ (k : Nat) (fuel attempt retries delayed : Nat) (a : α), k < fuel →
      (∀ i, i < k → ∃ e, op (attempt + i) = Except.error e) →
      op (attempt + k) = Except.ok a →
      retryAux op retryDelay fuel retries attempt delayed =
        (Except.ok a, retries + k, attempt + k + 1, delayed + k * retryDelay) := by
  intro k
  induction k with
  | zero =>
    intro fuel attempt retries delayed a hk _hfail hok
    rcases fuel with _ | fuel
    · omega
    · rw [show attempt + 0 = attempt by omega] at hok
      simp [retryAux, hok]
  | succ k ih =>
    intro fuel attempt retries delayed a hk hfail hok
    rcases fuel with _ | fuel
    · omega
    · obtain ⟨e, he⟩ := hfail 0 (by omega)
      rw [show attempt + 0 = attempt by omega] at he
      simp only [retryAux, he]
      have hfz : fuel ≠ 0 := by omega
      rw [if_neg hfz]
      have := ih fuel (attempt + 1) (retries + 1) (delayed + retryDelay) a (by omega)
        (fun i hi => by
          obtain ⟨e', he'⟩ := hfail (i + 1) (by omega)
          exact ⟨e', by rw [show attempt + 1 + i = attempt + (i + 1) by omega]; exact he'⟩)
        (by rw [show attempt + 1 + k = attempt + (k + 1) by omega]; exact hok)
      rw [this]
      have : delayed + retryDelay + k * retryDelay = delayed + (k + 1) * retryDelay := by
        rw [Nat.succ_mul]; omega
      rw [this, show retries + 1 + k = retries + (k + 1) by omega,
        show attempt + 1 + k + 1 = attempt + (k + 1) + 1 by omega]

lemma retryAux_exhaust {α : Type} (op : Nat → Except String α) (retryDelay : Nat) :
    ∀ (fuel attempt retries delayed : Nat) (e : String), 0 < fuel →
      (∀ i, i + 1 < fuel → ∃ e', op (attempt + i) = Except.error e') →
      op (attempt + (fuel - 1)) = Except.error e →
      retryAux op retryDelay fuel retries attempt delayed =
        (Except.error e, retries + fuel, attempt + fuel,
          delayed + (fuel - 1) * retryDelay) := by
  intro fuel
  induction fuel with
  | zero => intro attempt retries delayed e h; omega
  | succ fuel ih =>
    intro attempt retries delayed e _hpos hfail hlast
    rcases Nat.eq_zero_or_pos fuel with hf0 | hfpos
    · subst hf0
      rw [show attempt + (1 - 1) = attempt by omega] at hlast
      simp [retryAux, hlast]
    · obtain ⟨e0, he0⟩ := hfail 0 (by omega)
      rw [show attempt + 0 = attempt by omega] at he0
      simp only [retryAux, he0]
      rw [if_neg (show fuel ≠ 0 by omega)]
      have := ih (attempt + 1) (retries + 1) (delayed + retryDelay) e hfpos
        (fun i hi => by
          obtain ⟨e', he'⟩ := hfail (i + 1) (by omega)
          exact ⟨e', by rw [show attempt + 1 + i = attempt + (i + 1) by omega]; exact he'⟩)
        (by rw [show attempt + 1 + (fuel - 1) = attempt + (fuel + 1 - 1) by omega]; exact hlast)
      rw [this]
      have h1 : retries + 1 + fuel = retries + (fuel + 1) := by omega
      have h2 : attempt + 1 + fuel = attempt + (fuel + 1) := by omega
      have h3 : delayed + retryDelay + (fuel - 1) * retryDelay =
          delayed + (fuel + 1 - 1) * retryDelay := by
        rw [show fuel + 1 - 1 = (fuel - 1) + 1 by omega, Nat.succ_mul]
        omega
      rw [h1, h2, h3]

/-- C2 counterexample.  With `retryAttempts = 2` and a transport operation that
fails on its first two attempts and would succeed on the third,
`processChunkWithRetry` never performs the third attempt: it returns the error
of attempt 2 (terminal failure) with `chunk.retries = 2` after only 2 transport
attempts and one `retryDelay` wait — the chunk does not complete, contradicting
the claim that it ends in the completed set with no error surfaced. -/
theorem c2_counterexample :
    processChunkWithRetry failTwiceOps 2 1000 =
      (Except.error "network error", 2, 2, 1000) := rfl

/-- C2 amended.  The retry wrapper `processChunkWithRetry` makes at most
`retryAttempts` transport attempts in total (`retryAttempts` is the attempt
budget, not an extra-retries count): it succeeds, with final retry counter `k`
and `k` waits of `retryDelay`, exactly when some attempt `k < retryAttempts`
succeeds after `k` failures; and it returns terminal failure carrying the last
attempt's error, with retry counter equal to `retryAttempts`, once the first
`retryAttempts` attempts all fail.  In particular a chunk that fails twice
under `retryAttempts = 2` is terminally failed and the third attempt is never
made; a third attempt requires `retryAttempts ≥ 3`. -/
theorem c2_retry_semantics {α : Type} (op : Nat → Except String α)
    (retryAttempts retryDelay : Nat) :
    (∀ (k : Nat) (a : α), k < retryAttempts →
      (∀ i, i < k → ∃ e, op i = Except.error e) → op k = Except.ok a →
      processChunkWithRetry op retryAttempts retryDelay =
        (Except.ok a, k, k + 1, k * retryDelay)) ∧
    (∀ e : String, 0 < retryAttempts →
      (∀ i, i + 1 < retryAttempts → ∃ e', op i = Except.error e') →
      op (retryAttempts - 1) = Except.error e →
      processChunkWithRetry op retryAttempts retryDelay =
        (Except.error e, retryAttempts, retryAttempts,
          (retryAttempts - 1) * retryDelay)) := by
  constructor
  · intro k a hk hfail hok
    have := retryAux_ok op retryDelay k retryAttempts 0 0 0 a hk
      (fun i hi => by simpa using hfail i hi) (by simpa using hok)
    simpa [processChunkWithRetry] using this
  · intro e hpos hfail hlast
    have := retryAux_exhaust op retryDelay retryAttempts 0 0 0 e hpos
      (fun i hi => by simpa using hfail i hi) (by simpa using hlast)
    simpa [processChunkWithRetry] using this

/-- Witness for `c2_retry_semantics`: with `retryAttempts = 3` the
fail-fail-succeed chunk does complete on its third attempt with
`retries = 2` and two `retryDelay` waits. -/
theorem c2_retry_semantics_witness :
    processChunkWithRetry failTwiceOps 3 1000 = (Except.ok (), 2, 3, 2000) :=
  (c2_retry_semantics failTwiceOps 3 1000).1 2 () (by decide)
    (fun i hi => ⟨"network error", by
      have h : i = 0 ∨ i = 1 := by omega
      rcases h with rfl | rfl <;> rfl⟩)
    rfl

/-- C5 counterexample.  In Scenario B (`concurrentChunks = 2` irrelevant to the
terminal state, 5 chunks, chunk #3 always failing, default
`retryAttempts = 3`), the run does terminate with only chunk `chunk-4-6`
failed, but the single error it raises is the string
`Failed to process 1 chunks`, which does not mention the failed chunk's id
(nor its last error) — refuting the claim that the aggregate error lists every
failed chunk's id and last error. -/
theorem c5_counterexample :
    (runChunks scenarioBChunks 3 1000 scenarioBOp).failed = ["chunk-4-6"] ∧
    processChunksRun scenarioBChunks 3 1000 scenarioBOp =
      Except.error "Failed to process 1 chunks" ∧
    isInfixB "chunk-4-6".data "Failed to process 1 chunks".data = false := by
  refine ⟨rfl, rfl, ?_⟩
  decide

/-- C5 amended.  Whenever a `processChunks` run terminates with a non-empty
failed set it raises a single error, and that error reports only the COUNT of
failed chunks (`Failed to process N chunks`), not their ids or last errors;
this is the only failure the caller sees.  A permanently failing chunk does not
prevent the others: in Scenario B chunks #1, #2, #4, #5 all end in the
completed set, only `chunk-4-6` is failed, and the raised error is
`Failed to process 1 chunks`. -/
theorem c5_aggregate_error {α : Type} (chunks : List FileChunk)
    (retryAttempts retryDelay : Nat) (op : FileChunk → Nat → Except String α)
    (hfail : 0 < (runChunks chunks retryAttempts retryDelay op).failed.length) :
    processChunksRun chunks retryAttempts retryDelay op =
      Except.error ("Failed to process " ++
        toString (runChunks chunks retryAttempts retryDelay op).failed.length ++
        " chunks") ∧
    (runChunks scenarioBChunks 3 1000 scenarioBOp).completed =
      ["chunk-0-2", "chunk-2-4", "chunk-6-8", "chunk-8-10"] ∧
    (runChunks scenarioBChunks 3 1000 scenarioBOp).failed = ["chunk-4-6"] := by
  refine ⟨?_, rfl, rfl⟩
  simp only [processChunksRun, if_pos hfail]

/-- Witness for `c5_aggregate_error` on the Scenario B run itself. -/
theorem c5_aggregate_error_witness :
    processChunksRun scenarioBChunks 3 1000 scenarioBOp =
      Except.error "Failed to process 1 chunks" :=
  (c5_aggregate_error scenarioBChunks 3 1000 scenarioBOp (by decide)).1

lemma runChunksStep_zero {α : Type} (retryDelay : Nat)
    (op : FileChunk → Nat → Except String α) (st : RunState α) (c : FileChunk) :
    runChunksStep 0 retryDelay op st c = { st with failed := st.failed ++ [c.id] } := by
  simp [runChunksStep, processChunkWithRetry, retryAux]

lemma runChunks_zero_foldl {α : Type} (retryDelay : Nat)
    (op : FileChunk → Nat → Except String α) :
    ∀ (chunks : List FileChunk) (st : RunState α),
      chunks.foldl (runChunksStep 0 retryDelay op) st =
        { st with failed := st.failed ++ chunks.map FileChunk.id } := by
  intro chunks
  induction chunks with
  | nil => intro st; simp
  | cons c rest ih =>
    intro st
    simp only [List.foldl_cons, List.map_cons]
    rw [runChunksStep_zero, ih]
    simp

/-- C10.  With `retryAttempts = 0` the loop guard `chunk.retries <
retryAttempts` of `processChunkWithRetry` is false from the start, so the
wrapper returns the terminal `Max retry attempts reached` failure without a
single transport attempt (attempt count 0, no delay); consequently a transfer
over a non-empty chunk list settles every chunk as failed, makes 0 transport
attempts in total, and `processChunks` throws
`Failed to process N chunks` for `N` the number of chunks. -/
theorem c10_zero_retry_attempts {α : Type} (chunks : List FileChunk)
    (retryDelay : Nat) (op : FileChunk → Nat → Except String α)
    (hne : chunks ≠ []) :
    (∀ opc : Nat → Except String α,
      processChunkWithRetry opc 0 retryDelay =
        (Except.error "Max retry attempts reached for chunk", 0, 0, 0)) ∧
    (runChunks chunks 0 retryDelay op).attempts = 0 ∧
    (runChunks chunks 0 retryDelay op).failed = chunks.map FileChunk.id ∧
    processChunksRun chunks 0 retryDelay op =
      Except.error ("Failed to process " ++ toString chunks.length ++ " chunks") := by
  have hrun : runChunks chunks 0 retryDelay op =
      { results := List.replicate chunks.length none
        completed := []
        failed := chunks.map FileChunk.id
        bytesTransferred := 0
        attempts := 0 } := by
    rw [runChunks, runChunks_zero_foldl]
    simp
  have hlen : 0 < chunks.length := by
    cases chunks with
    | nil => exact absurd rfl hne
    | cons c rest => simp
  refine ⟨fun opc => rfl, by rw [hrun], by rw [hrun], ?_⟩
  rw [processChunksRun, hrun]
  simp only [List.length_map]
  rw [if_pos hlen]

/-- Witness for `c10_zero_retry_attempts` on the Scenario A chunk list with an
always-succeeding transport: the transfer still fails, with no attempt made. -/
theorem c10_zero_retry_attempts_witness :
    processChunksRun (initializeChunks 10 4 0) 0 1000
        (fun _ _ => Except.ok ()) =
      Except.error "Failed to process 3 chunks" :=
  (c10_zero_retry_attempts (initializeChunks 10 4 0) 1000
    (fun _ _ => Except.ok ()) (by decide)).2.2.2

lemma isPendingB_true {s : SchedState} {c : FileChunk} (h : isPendingB s c = true) :
    c.id ∉ s.active ∧ c.id ∉ s.completed ∧ c.id ∉ s.failed := by
  simp only [isPendingB, Bool.and_eq_true, Bool.not_eq_true', decide_eq_false_iff_not] at h
  exact ⟨h.1.1, h.1.2, h.2⟩

lemma getNextChunk_some {chunks : List FileChunk} {s : SchedState} {c : FileChunk}
    (h : getNextChunk chunks s = some c) :
    c ∈ chunks ∧ c.id ∉ s.active ∧ c.id ∉ s.completed ∧ c.id ∉ s.failed :=
  ⟨List.mem_of_find?_eq_some h, isPendingB_true (List.find?_some h)⟩

lemma completedBytes_insert_not_mem (comp : Finset String) (x : String) :
    ∀ chunks : List FileChunk, (∀ c ∈ chunks, c.id ≠ x) →
      completedBytes (insert x comp) chunks = completedBytes comp chunks := by
  intro chunks
  induction chunks with
  | nil => intro _; rfl
  | cons a rest ih =>
    intro h
    simp only [completedBytes]
    rw [ih (fun c hc => h c (List.mem_cons_of_mem _ hc))]
    have hax : a.id ≠ x := h a (List.mem_cons_self _ _)
    by_cases hm : a.id ∈ comp
    · rw [if_pos hm, if_pos (Finset.mem_insert_of_mem hm)]
    · rw [if_neg hm, if_neg (by simp [Finset.mem_insert, hax, hm])]

lemma completedBytes_insert (comp : Finset String) (c : FileChunk) :
    ∀ chunks : List FileChunk, (chunks.map FileChunk.id).Nodup →
      c ∈ chunks → c.id ∉ comp →
      completedBytes (insert c.id comp) chunks = completedBytes comp chunks + c.size := by
  intro chunks
  induction chunks with
  | nil => intro _ hc; simp at hc
  | cons a rest ih =>
    intro hnd hc hnm
    have hnd' : (rest.map FileChunk.id).Nodup := (List.nodup_cons.mp hnd).2
    have hhead : a.id ∉ rest.map FileChunk.id := (List.nodup_cons.mp hnd).1
    rcases List.mem_cons.mp hc with rfl | hc
    · simp only [completedBytes]
      rw [if_pos (Finset.mem_insert_self _ _), if_neg hnm]
      rw [completedBytes_insert_not_mem comp c.id rest
        (fun d hd hdc => hhead (hdc ▸ List.mem_map_of_mem FileChunk.id hd))]
      omega
    · have hane : a.id ≠ c.id := by
        intro hcontra
        exact hhead (hcontra ▸ List.mem_map_of_mem FileChunk.id hc)
      simp only [completedBytes]
      rw [ih hnd' hc hnm]
      have : (if a.id ∈ insert c.id comp then a.size else 0) =
          (if a.id ∈ comp then a.size else 0) := by
        by_cases hm : a.id ∈ comp
        · rw [if_pos hm, if_pos (Finset.mem_insert_of_mem hm)]
        · rw [if_neg hm, if_neg (by simp [Finset.mem_insert, hane, hm])]
      omega

lemma schedInv_init (chunks : List FileChunk) (concurrentChunks : Nat) :
    SchedInv chunks concurrentChunks initSchedState := by
  refine ⟨by simp [initSchedState], by simp [initSchedState], by simp [initSchedState],
    by simp [initSchedState], by simp [initSchedState], ?_⟩
  show 0 = completedBytes ∅ chunks
  induction chunks with
  | nil => rfl
  | cons a rest ih => simpa [completedBytes] using ih

lemma mem_chunkIds_of_mem {chunks : List FileChunk} {c : FileChunk} (hc : c ∈ chunks) :
    c.id ∈ chunkIds chunks := by
  simp only [chunkIds, List.mem_toFinset]
  exact List.mem_map_of_mem FileChunk.id hc

lemma schedInv_step {chunks : List FileChunk} {N : Nat}
    (hnd : (chunks.map FileChunk.id).Nodup) {s s' : SchedState}
    (hinv : SchedInv chunks N s) (hstep : SchedStep chunks N s s') :
    SchedInv chunks N s' := by
  cases hstep with
  | launch c hcap hget =>
    obtain ⟨hc, hna, hnc, hnf⟩ := getNextChunk_some hget
    refine ⟨?_, ?_, ?_, hinv.disjCF, ?_, hinv.bytes⟩
    · calc (insert c.id s.active).card ≤ s.active.card + 1 := Finset.card_insert_le _ _
        _ ≤ N := by omega
    · exact Finset.disjoint_insert_left.mpr ⟨hnc, hinv.disjAC⟩
    · exact Finset.disjoint_insert_left.mpr ⟨hnf, hinv.disjAF⟩
    · intro x hx
      simp only [Finset.mem_union, Finset.mem_insert] at hx
      rcases hx with ((rfl | hx) | hx) | hx
      · exact mem_chunkIds_of_mem hc
      · exact hinv.subIds (by simp [Finset.mem_union, hx])
      · exact hinv.subIds (by simp [Finset.mem_union, hx])
      · exact hinv.subIds (by simp [Finset.mem_union, hx])
  | settleOk c hc ha =>
    have hnc : c.id ∉ s.completed := Finset.disjoint_left.mp hinv.disjAC ha
    have hnf : c.id ∉ s.failed := Finset.disjoint_left.mp hinv.disjAF ha
    refine ⟨?_, ?_, ?_, ?_, ?_, ?_⟩
    · calc (s.active.erase c.id).card ≤ s.active.card :=
          Finset.card_le_card (Finset.erase_subset _ _)
        _ ≤ N := hinv.activeCard
    · exact Finset.disjoint_insert_right.mpr
        ⟨Finset.not_mem_erase _ _,
         Finset.disjoint_of_subset_left (Finset.erase_subset _ _) hinv.disjAC⟩
    · exact Finset.disjoint_of_subset_left (Finset.erase_subset _ _) hinv.disjAF
    · exact Finset.disjoint_insert_left.mpr ⟨hnf, hinv.disjCF⟩
    · intro x hx
      simp only [Finset.mem_union, Finset.mem_insert, Finset.mem_erase] at hx
      rcases hx with (hx | (rfl | hx)) | hx
      · exact hinv.subIds (by simp [Finset.mem_union, hx.2])
      · exact mem_chunkIds_of_mem hc
      · exact hinv.subIds (by simp [Finset.mem_union, hx])
      · exact hinv.subIds (by simp [Finset.mem_union, hx])
    · show s.bytesTransferred + c.size = completedBytes (insert c.id s.completed) chunks
      rw [completedBytes_insert s.completed c chunks hnd hc hnc, hinv.bytes]
  | settleFail c hc ha =>
    have hnc : c.id ∉ s.completed := Finset.disjoint_left.mp hinv.disjAC ha
    have hnf : c.id ∉ s.failed := Finset.disjoint_left.mp hinv.disjAF ha
    refine ⟨?_, ?_, ?_, ?_, ?_, hinv.bytes⟩
    · calc (s.active.erase c.id).card ≤ s.active.card :=
          Finset.card_le_card (Finset.erase_subset _ _)
        _ ≤ N := hinv.activeCard
    · exact Finset.disjoint_of_subset_left (Finset.erase_subset _ _) hinv.disjAC
    · exact Finset.disjoint_insert_right.mpr
        ⟨Finset.not_mem_erase _ _,
         Finset.disjoint_of_subset_left (Finset.erase_subset _ _) hinv.disjAF⟩
    · exact Finset.disjoint_insert_right.mpr ⟨hnc, hinv.disjCF⟩
    · intro x hx
      simp only [Finset.mem_union, Finset.mem_insert, Finset.mem_erase] at hx
      rcases hx with (hx | hx) | (rfl | hx)
      · exact hinv.subIds (by simp [Finset.mem_union, hx.2])
      · exact hinv.subIds (by simp [Finset.mem_union, hx])
      · exact mem_chunkIds_of_mem hc
      · exact hinv.subIds (by simp [Finset.mem_union, hx])

lemma schedInv_reachable {chunks : List FileChunk} {N : Nat}
    (hnd : (chunks.map FileChunk.id).Nodup) {s : SchedState}
    (hreach : Reachable chunks N s) : SchedInv chunks N s := by
  induction hreach with
  | refl => exact schedInv_init chunks N
  | tail _hsteps hstep ih => exact schedInv_step hnd ih hstep

lemma active_card_le_step {chunks : List FileChunk} {N : Nat} {s s' : SchedState}
    (hstep : SchedStep chunks N s s') (hle : s.active.card ≤ N) :
    s'.active.card ≤ N := by
  cases hstep with
  | launch c hcap hget =>
    calc (insert c.id s.active).card ≤ s.active.card + 1 := Finset.card_insert_le _ _
      _ ≤ N := by omega
  | settleOk c hc ha =>
    calc (s.active.erase c.id).card ≤ s.active.card :=
        Finset.card_le_card (Finset.erase_subset _ _)
      _ ≤ N := hle
  | settleFail c hc ha =>
    calc (s.active.erase c.id).card ≤ s.active.card :=
        Finset.card_le_card (Finset.erase_subset _ _)
      _ ≤ N := hle

/-- C3.  Over every interleaving of a `processChunks` run, the number of chunk
ids in `activeChunks` never exceeds `concurrentChunks`: launches are guarded by
`activeChunks.size < concurrentChunks`, and settlements only remove ids. -/
theorem c3_concurrency_bound (chunks : List FileChunk) (concurrentChunks : Nat)
    (s : SchedState) (hreach : Reachable chunks concurrentChunks s) :
    s.active.card ≤ concurrentChunks := by
  induction hreach with
  | refl => simp [initSchedState]
  | tail _hsteps hstep ih => exact active_card_le_step hstep ih

/-- Witness for `c3_concurrency_bound`: the state after launching the first
Scenario A chunk under `concurrentChunks = 3`. -/
theorem c3_concurrency_bound_witness :
    (SchedState.mk (insert (mkChunk 4 0 4).id ∅) ∅ ∅ 0).active.card ≤ 3 :=
  c3_concurrency_bound (initializeChunks 10 4 0) 3 _
    (Relation.ReflTransGen.single
      (SchedStep.launch initSchedState (mkChunk 4 0 4) (by decide) (by decide)))

lemma step_union_card {chunks : List FileChunk} {N : Nat} {s s' : SchedState}
    (hstep : SchedStep chunks N s s') :
    (s.active ∪ s.completed ∪ s.failed).card ≤
      (s'.active ∪ s'.completed ∪ s'.failed).card := by
  cases hstep with
  | launch c hcap hget =>
    apply Finset.card_le_card
    intro x hx
    simp only [Finset.mem_union, Finset.mem_insert] at hx ⊢
    tauto
  | settleOk c hc ha =>
    have hset : s.active.erase c.id ∪ insert c.id s.completed ∪ s.failed =
        s.active ∪ s.completed ∪ s.failed := by
      ext x
      by_cases hx : x = c.id
      · subst hx
        simp [Finset.mem_union, Finset.mem_insert, ha]
      · simp [Finset.mem_union, Finset.mem_insert, Finset.mem_erase, hx]
    rw [hset]
  | settleFail c hc ha =>
    have hset : s.active.erase c.id ∪ s.completed ∪ insert c.id s.failed =
        s.active ∪ s.completed ∪ s.failed := by
      ext x
      by_cases hx : x = c.id
      · subst hx
        simp [Finset.mem_union, Finset.mem_insert, ha]
      · simp [Finset.mem_union, Finset.mem_insert, Finset.mem_erase, hx]
    rw [hset]

/-- C4.  Over every reachable state of a `processChunks` run (for chunk lists
with distinct ids, as the planner produces): `activeChunks`, `completedChunks`
and `failedChunks` are pairwise disjoint; `bytesTransferred` equals the sum of
the sizes of the chunks whose ids are in `completedChunks` (so each chunk's
size is counted exactly once, added exactly when the chunk completes); every
scheduler step keeps the size of the union of the three sets from decreasing;
and when the run terminates (`hasIncompleteChunks` false),
`completedChunks ∪ failedChunks` is the full planned chunk-id set while
`bytesTransferred` is the sum of the completed chunks' sizes. -/
theorem c4_transfer_state_invariants (chunks : List FileChunk) (N : Nat)
    (hnd : (chunks.map FileChunk.id).Nodup) (s : SchedState)
    (hreach : Reachable chunks N s) :
    (Disjoint s.active s.completed ∧ Disjoint s.active s.failed ∧
      Disjoint s.completed s.failed) ∧
    s.bytesTransferred = completedBytes s.completed chunks ∧
    (∀ s', SchedStep chunks N s s' →
      (s.active ∪ s.completed ∪ s.failed).card ≤
        (s'.active ∪ s'.completed ∪ s'.failed).card) ∧
    (hasIncompleteChunks chunks s = false →
      s.completed ∪ s.failed = chunkIds chunks) := by
  have hinv := schedInv_reachable hnd hreach
  refine ⟨⟨hinv.disjAC, hinv.disjAF, hinv.disjCF⟩, hinv.bytes,
    fun s' hstep => step_union_card hstep, ?_⟩
  intro hterm
  have hsub : s.completed ∪ s.failed ⊆ chunkIds chunks := by
    intro x hx
    apply hinv.subIds
    simp only [Finset.mem_union] at hx ⊢
    tauto
  have hcard : chunks.length ≤ s.completed.card + s.failed.card := by
    have h := hterm
    simp only [hasIncompleteChunks, decide_eq_false_iff_not, not_lt] at h
    exact h
  have hcu : (s.completed ∪ s.failed).card = s.completed.card + s.failed.card :=
    Finset.card_union_of_disjoint hinv.disjCF
  have hidcard : (chunkIds chunks).card = chunks.length := by
    rw [chunkIds, List.toFinset_card_of_nodup hnd, List.length_map]
  exact Finset.eq_of_subset_of_card_le hsub (by omega)

/-- Witness for `c4_transfer_state_invariants`: after launching and
successfully settling the first Scenario A chunk, `bytesTransferred = 4` is
the completed-bytes sum. -/
theorem c4_transfer_state_invariants_witness :
    (SchedState.mk
        ((insert (mkChunk 4 0 4).id (∅ : Finset String)).erase (mkChunk 4 0 4).id)
        (insert (mkChunk 4 0 4).id ∅) ∅
        (0 + (mkChunk 4 0 4).size)).bytesTransferred =
      completedBytes (insert (mkChunk 4 0 4).id ∅) (initializeChunks 10 4 0) :=
  (c4_transfer_state_invariants (initializeChunks 10 4 0) 3 (by decide) _
    (Relation.ReflTransGen.tail
      (Relation.ReflTransGen.single
        (SchedStep.launch initSchedState (mkChunk 4 0 4) (by decide) (by decide)))
      (SchedStep.settleOk _ (mkChunk 4 0 4) (by decide) (by decide)))).2.1

/-- C6 counterexample.  At `totalSize = 10, chunkSize = 4, resumeOffset = 20`
(resume offset beyond the file), chunk planning does NOT fail: it runs to
completion with no error and an empty chunk list — there is no
`InvalidConfigurationError` (nor any other validation) anywhere in
`initializeChunks` or the `FileTransfer` constructor. -/
theorem c6_counterexample :
    initializeChunksE 10 4 20 = Except.ok [] := rfl

/-- C6 amended.  Chunk planning performs no input validation and never raises
an error: whenever `resumeOffset > totalSize` it silently returns the empty
chunk list (so the transfer proceeds as if already complete), and on every
input on which the planning loop terminates it returns `Except.ok`.  (For
`chunkSize ≤ 0` with `resumeOffset < totalSize` the source loop fails to
terminate instead of raising `InvalidConfigurationError`; non-termination is
outside this embedding.) -/
theorem c6_no_validation (totalSize chunkSize resumeOffset : Nat)
    (hgt : totalSize < resumeOffset) :
    initializeChunksE totalSize chunkSize resumeOffset = Except.ok [] ∧
    ∀ t c r : Nat, ∃ l, initializeChunksE t c r = Except.ok l := by
  constructor
  · rw [initializeChunksE, initializeChunks,
      show totalSize - resumeOffset = 0 by omega]
    rfl
  · intro t c r
    exact ⟨_, rfl⟩

/-- Witness for `c6_no_validation` at `totalSize = 10, chunkSize = 4,
resumeOffset = 20`. -/
theorem c6_no_validation_witness :
    initializeChunksE 10 4 20 = Except.ok ([] : List FileChunk) :=
  (c6_no_validation 10 4 20 (by decide)).1

/-- C8 counterexample.  With 0 bytes transferred after 5 elapsed seconds of a
100-byte transfer, the speed is 0 and the code reports
`estimatedTimeRemaining = 0` — a finite value (claiming zero seconds remain
with 100 bytes outstanding), not the "infinite (or undefined)" estimate the
claim requires for `speed = 0`. -/
theorem c8_counterexample :
    getProgress 0 100 5000 = (0, 100, 0) := by
  norm_num [getProgress]

/-- C8 amended.  For positive elapsed time (where the `ℚ` embedding is
faithful), `getProgress` computes `speed = bytesTransferred·1000 / elapsedMs`
with no guard branch on elapsed time; when nothing has been transferred the
reported speed is 0 and the estimated time remaining is the finite value 0
(not infinite/undefined); when bytes have been transferred the speed is
positive and the estimate satisfies `estimate · speed = remaining`. -/
theorem c8_progress_formulas (b t e : ℚ) (he : 0 < e) :
    (getProgress b t e).1 = b * 1000 / e ∧
    (b = 0 → getProgress b t e = (0, t, 0)) ∧
    (0 < b → 0 < (getProgress b t e).1 ∧
      (getProgress b t e).2.2 * (getProgress b t e).1 = t - b) := by
  have he1000 : (0 : ℚ) < e / 1000 := by positivity
  refine ⟨?_, ?_, ?_⟩
  · show b / (e / 1000) = b * 1000 / e
    rw [div_div_eq_mul_div]
  · intro hb
    subst hb
    simp only [getProgress, zero_div, sub_zero, lt_self_iff_false, if_neg, if_false]
  · intro hb
    have hspeed : (0 : ℚ) < b / (e / 1000) := div_pos hb he1000
    constructor
    · exact hspeed
    · show (if 0 < b / (e / 1000) then (t - b) / (b / (e / 1000)) else 0) *
        (b / (e / 1000)) = t - b
      rw [if_pos hspeed, div_mul_cancel₀ _ (ne_of_gt hspeed)]

/-- Witness for `c8_progress_formulas`: 50 bytes in 5 seconds gives speed
`50·1000/5000 = 10` bytes/sec. -/
theorem c8_progress_formulas_witness :
    (getProgress 50 100 5000).1 = 50 * 1000 / 5000 :=
  (c8_progress_formulas 50 100 5000 (by norm_num)).1

/-- C9 counterexample.  Under `validateHash = true`, `uploadChunk` mutates the
chunk's `hash` field: for the first Scenario A chunk (planned with
`hash = none`) the field afterwards holds the digest — contradicting the claim
that the hash field is unchanged from its planning-time value. -/
theorem c9_counterexample :
    ((uploadChunkState (fun _ => "digest") true
        ((List.range 10).map id) (mkChunk 4 0 4)).1).hash = some "digest" ∧
    (mkChunk 4 0 4).hash = none :=
  ⟨rfl, rfl⟩

/-- C9 amended.  `uploadChunk` leaves the chunk's `id`, `index`, `start`,
`end`, `size` and `retries` fields unchanged for every input; besides the
retry counter (owned by the retry wrapper) the only chunk field it can mutate
is `hash`, and it does so exactly when `validateHash` is set — with
`validateHash = false` the chunk record is unchanged entirely. -/
theorem c9_upload_chunk_frame (hashFn : List Nat → String) (validateHash : Bool)
    (file : List Nat) (c : FileChunk) :
    ((uploadChunkState hashFn validateHash file c).1.id = c.id ∧
     (uploadChunkState hashFn validateHash file c).1.index = c.index ∧
     (uploadChunkState hashFn validateHash file c).1.start = c.start ∧
     (uploadChunkState hashFn validateHash file c).1.endPos = c.endPos ∧
     (uploadChunkState hashFn validateHash file c).1.size = c.size ∧
     (uploadChunkState hashFn validateHash file c).1.retries = c.retries) ∧
    (validateHash = false → (uploadChunkState hashFn validateHash file c).1 = c) := by
  constructor
  · cases validateHash <;> simp [uploadChunkState]
  · intro h
    subst h
    simp [uploadChunkState]

/-- Witness for `c9_upload_chunk_frame` with hashing disabled on the first
Scenario A chunk. -/
theorem c9_upload_chunk_frame_witness :
    (uploadChunkState (fun _ => "digest") false
      ((List.range 10).map id) (mkChunk 4 0 4)).1 = mkChunk 4 0 4 :=
  (c9_upload_chunk_frame (fun _ => "digest") false
    ((List.range 10).map id) (mkChunk 4 0 4)).2 rfl

lemma initChunksAux_writes (t cs : Nat) (hcs : 0 < cs) (payload : List Nat) :
    ∀ fuel m,
      (initChunksAux t cs (m * cs) fuel).map (fun c => (c.index, sliceOf payload c)) =
        List.enumFrom m ((initChunksAux t cs (m * cs) fuel).map (sliceOf payload)) := by
  intro fuel
  induction fuel with
  | zero => intro m; simp [initChunksAux]
  | succ fuel ih =>
    intro m
    by_cases hlt : m * cs < t
    · simp only [initChunksAux, if_pos hlt, List.map_cons, List.enumFrom_cons]
      have hidx : (mkChunk cs (m * cs) (min (m * cs + cs) t)).index = m := by
        simp [mkChunk, Nat.mul_div_cancel m hcs]
      rw [hidx]
      congr 1
      rw [show m * cs + cs = (m + 1) * cs by ring]
      exact ih (m + 1)
    · simp [initChunksAux, if_neg hlt]

lemma initChunksAux_join (cs : Nat) (hcs : 0 < cs) (payload : List Nat) :
    ∀ fuel start, payload.length - start ≤ fuel →
      ((initChunksAux payload.length cs start fuel).map (sliceOf payload)).flatten =
        payload.drop start := by
  intro fuel
  induction fuel with
  | zero =>
    intro start h
    rw [List.drop_eq_nil_of_le (by omega)]
    simp [initChunksAux]
  | succ fuel ih =>
    intro start h
    by_cases hlt : start < payload.length
    · simp only [initChunksAux, if_pos hlt, List.map_cons, List.flatten_cons]
      rw [ih (start + cs) (by omega)]
      simp only [sliceOf, mkChunk]
      by_cases hcase : start + cs ≤ payload.length
      · rw [show min (start + cs) payload.length = start + cs by omega,
          show start + cs - start = cs by omega,
          ← List.drop_drop]
        exact List.take_append_drop cs (payload.drop start)
      · rw [show min (start + cs) payload.length = payload.length by omega,
          List.drop_eq_nil_of_le (show payload.length ≤ start + cs by omega),
          List.append_nil,
          show payload.length - start = (payload.drop start).length by
            rw [List.length_drop],
          List.take_length]
    · rw [List.drop_eq_nil_of_le (by omega)]
      simp [initChunksAux, if_neg hlt]

lemma foldl_set_enumFrom {β : Type} :
    ∀ (ds : List β) (k : Nat) (rs : List (Option β)), k + ds.length ≤ rs.length →
      (List.enumFrom k ds).foldl (fun a w => a.set w.1 (some w.2)) rs =
        rs.take k ++ ds.map some ++ rs.drop (k + ds.length) := by
  intro ds
  induction ds with
  | nil =>
    intro k rs _h
    simp [List.take_append_drop]
  | cons d rest ih =>
    intro k rs h
    simp only [List.length_cons] at h
    have hk : k < rs.length := by omega
    have hTlen : (rs.take k).length = k := by
      rw [List.length_take]
      omega
    have hset : rs.set k (some d) = rs.take k ++ some d :: rs.drop (k + 1) :=
      List.set_eq_take_cons_drop (some d) hk
    have htake : (rs.set k (some d)).take (k + 1) = rs.take k ++ [some d] := by
      rw [hset, List.take_append_eq_append_take, hTlen,
        List.take_of_length_le (by rw [hTlen]; exact Nat.le_succ k),
        show k + 1 - k = 1 by omega]
      simp
    have hdrop : (rs.set k (some d)).drop (k + 1 + rest.length) =
        rs.drop (k + (rest.length + 1)) := by
      rw [hset, List.drop_append_eq_append_drop,
        List.drop_eq_nil_of_le (by rw [hTlen]; omega), List.nil_append, hTlen,
        show k + 1 + rest.length - k = rest.length + 1 by omega,
        List.drop_succ_cons, List.drop_drop,
        show k + 1 + rest.length = k + (rest.length + 1) by omega]
    simp only [List.enumFrom_cons, List.foldl_cons, List.map_cons, List.length_cons]
    rw [ih (k + 1) (rs.set k (some d)) (by rw [List.length_set]; omega)]
    rw [htake, hdrop]
    simp [List.append_assoc]

lemma enumFrom_fst_ge {β : Type} :
    ∀ (l : List β) (m : Nat) (x : Nat × β), x ∈ List.enumFrom m l → m ≤ x.1 := by
  intro l
  induction l with
  | nil => intro m x hx; simp at hx
  | cons d rest ih =>
    intro m x hx
    rcases List.mem_cons.mp (by simpa [List.enumFrom_cons] using hx) with rfl | hx
    · exact le_refl _
    · exact le_trans (Nat.le_succ m) (ih (m + 1) x hx)

lemma enumFrom_key_inj {β : Type} :
    ∀ (l : List β) (m : Nat) (x y : Nat × β),
      x ∈ List.enumFrom m l → y ∈ List.enumFrom m l → x.1 = y.1 → x = y := by
  intro l
  induction l with
  | nil => intro m x y hx; simp at hx
  | cons d rest ih =>
    intro m x y hx hy hxy
    rcases List.mem_cons.mp (by simpa [List.enumFrom_cons] using hx) with rfl | hx <;>
      rcases List.mem_cons.mp (by simpa [List.enumFrom_cons] using hy) with rfl | hy
    · rfl
    · have := enumFrom_fst_ge rest (m + 1) y hy
      omega
    · have := enumFrom_fst_ge rest (m + 1) x hx
      omega
    · exact ih (m + 1) x y hx hy hxy

/-- C7.  For a full download (`resumeOffset = 0`) in which every chunk's
transport operation succeeds with the bytes of its requested range (the
validated-hash success case), the assembled output equals the original
payload byte for byte, regardless of the order in which chunk results are
written: for ANY permutation `ws` of the chunks' `(index, bytes)` completion
events, writing each result at the slot of its chunk index
(`results[chunk.index] = result`) and concatenating the slots in ascending
index order (`new Blob(chunks)`) reproduces the payload. -/
theorem c7_download_round_trip (payload : List Nat) (chunkSize : Nat)
    (hcs : 0 < chunkSize) (ws : List (Nat × List Nat))
    (hperm : ws.Perm ((initializeChunks payload.length chunkSize 0).map
      (fun c => (c.index, sliceOf payload c)))) :
    joinSlots (runWrites (initializeChunks payload.length chunkSize 0).length ws) =
      payload := by
  have hwrites : (initializeChunks payload.length chunkSize 0).map
      (fun c => (c.index, sliceOf payload c)) =
      List.enumFrom 0 ((initializeChunks payload.length chunkSize 0).map
        (sliceOf payload)) := by
    have h := initChunksAux_writes payload.length chunkSize hcs payload
      (payload.length - 0) 0
    simpa [initializeChunks] using h
  have hinj : ∀ x ∈ ws, ∀ y ∈ ws, ∀ z : List (Option (List Nat)),
      (z.set x.1 (some x.2)).set y.1 (some y.2) =
        (z.set y.1 (some y.2)).set x.1 (some x.2) := by
    intro x hx y hy z
    have hx' := hperm.subset hx
    have hy' := hperm.subset hy
    rw [hwrites] at hx' hy'
    by_cases hxy : x.1 = y.1
    · have : x = y :=
        enumFrom_key_inj ((initializeChunks payload.length chunkSize 0).map
          (sliceOf payload)) 0 x y hx' hy' hxy
      rw [this]
    · exact List.set_comm _ _ z hxy
  have hfold : ∀ b : List (Option (List Nat)),
      ws.foldl (fun a w => a.set w.1 (some w.2)) b =
        ((initializeChunks payload.length chunkSize 0).map
          (fun c => (c.index, sliceOf payload c))).foldl
            (fun a w => a.set w.1 (some w.2)) b :=
    hperm.foldl_eq' hinj
  rw [runWrites, hfold, hwrites]
  rw [foldl_set_enumFrom _ 0 _ (by simp)]
  rw [List.take_zero, List.nil_append, List.drop_eq_nil_of_le (by simp),
    List.append_nil]
  rw [joinSlots, List.map_map]
  have hcomp : ((fun o : Option (List Nat) => o.getD []) ∘ some) =
      (id : List Nat → List Nat) := by
    funext d
    rfl
  rw [hcomp, List.map_id]
  have hjoin := initChunksAux_join chunkSize hcs payload (payload.length - 0) 0
    (le_refl _)
  simpa [initializeChunks] using hjoin

/-- Witness for `c7_download_round_trip`: the 10-byte payload with
`chunkSize = 4`, completion events delivered in reverse order. -/
theorem c7_download_round_trip_witness :
    joinSlots (runWrites (initializeChunks (List.range 10).length 4 0).length
      (((initializeChunks (List.range 10).length 4 0).map
        (fun c => (c.index, sliceOf (List.range 10) c))).reverse)) =
      List.range 10 :=
  c7_download_round_trip (List.range 10) 4 (by decide) _ (List.reverse_perm _)

end FileTransferSpec
